import Mathlib

/-!
Shallow embedding of the OI_Script market-data collector and verification of
its specified properties.

Times, prices, weights and Decimal amounts are modelled as rationals (`ℚ`),
strings as `List Char`, dictionaries as association lists or lookup
functions, exceptions as `Except`, and `None`-able values as `Option`.
Asynchronous interleavings are modelled by explicit event sequences; the
rate-limiter critical section makes each check-and-record atomic, so a run
of the limiter is a sequence of loop-body evaluations.
-/

namespace OIScript

/-! ### RateLimiter (test.py, class RateLimiter)

`self.requests : List[Tuple[float, int]]` is a list of `(timestamp, weight)`
entries.  One evaluation of the `acquire` loop body (under `self.lock`)
prunes entries older than 60 seconds, sums the remaining weights, and either
records the request and returns, or computes a wait time and sleeps. -/

/-- One entry survives pruning at time `now` iff `now - ts < 60`
(test.py line 225-228). -/
def survives (now : ℚ) (e : ℚ × ℚ) : Bool := decide (now - e.1 < 60)

/-- `self.requests = [(ts, w) for ts, w in self.requests if current_time - ts < 60]`. -/
def pruneRequests (now : ℚ) (reqs : List (ℚ × ℚ)) : List (ℚ × ℚ) :=
  reqs.filter (survives now)

/-- `current_weight = sum(w for _, w in self.requests)`. -/
def totalWeight (reqs : List (ℚ × ℚ)) : ℚ := (reqs.map Prod.snd).sum

/-- One evaluation of the `acquire` loop body at time `now` for weight `w`:
prune, then admit (append `(now, w)` and return `true`) iff
`current_weight + weight <= max_weight_per_minute`; otherwise leave the
pruned log and return `false` (the caller then sleeps and re-evaluates). -/
def acquireStep (maxW : ℚ) (reqs : List (ℚ × ℚ)) (now w : ℚ) :
    List (ℚ × ℚ) × Bool :=
  let pruned := pruneRequests now reqs
  if totalWeight pruned + w ≤ maxW then (pruned ++ [(now, w)], true)
  else (pruned, false)

/-- `min(ts for ts, _ in self.requests)` (0 for the empty log, unused there). -/
def oldestTime : List (ℚ × ℚ) → ℚ
  | [] => 0
  | [e] => e.1
  | e :: f :: rest => min e.1 (oldestTime (f :: rest))

/-- `wait_time = max(0.1, 60 - (current_time - oldest_request_time) + 1)` when
the log is nonempty, else `1.0` (test.py lines 239-243). -/
def waitTime (now : ℚ) (reqs : List (ℚ × ℚ)) : ℚ :=
  if reqs.isEmpty then 1 else max (1/10) (60 - (now - oldestTime reqs) + 1)

/-- A full run of the limiter over a sequence of loop-body evaluations
`events = [(time, weight), ...]` (each element is one atomic check inside the
lock, by any caller).  Returns the final log and the sublist of admitted
events. -/
def runLimiter (maxW : ℚ) :
    List (ℚ × ℚ) → List (ℚ × ℚ) → List (ℚ × ℚ) × List (ℚ × ℚ)
  | reqs, [] => (reqs, [])
  | reqs, e :: es =>
    let step := acquireStep maxW reqs e.1 e.2
    let rest := runLimiter maxW step.1 es
    (rest.1, if step.2 then e :: rest.2 else rest.2)

/-- The admitted events of a run that starts from the empty log. -/
def admittedEvents (maxW : ℚ) (events : List (ℚ × ℚ)) : List (ℚ × ℚ) :=
  (runLimiter maxW [] events).2

/-- An entry lies in the trailing 60-second window at time `t`. -/
def inWindow (t : ℚ) (e : ℚ × ℚ) : Bool := decide (t - e.1 < 60) && decide (e.1 ≤ t)

/-- Total admitted weight inside the trailing 60-second window at time `t`. -/
def windowWeight (t : ℚ) (l : List (ℚ × ℚ)) : ℚ :=
  totalWeight (l.filter (inWindow t))

/-- A single caller looping inside `acquire` (no competing callers): each
failed evaluation is followed by a sleep of `waitTime`, after which the loop
body runs again on the pruned log.  `fuel` bounds the number of evaluations
modelled; `none` means the loop was still spinning after `fuel` evaluations. -/
def acquireLoop (maxW w : ℚ) : ℕ → List (ℚ × ℚ) → ℚ → Option (List (ℚ × ℚ) × ℚ)
  | 0, _, _ => none
  | fuel + 1, reqs, now =>
    let step := acquireStep maxW reqs now w
    if step.2 then some (step.1, now)
    else acquireLoop maxW w fuel step.1 (now + waitTime now step.1)

/-! ### DataConverter (utils/converters.py) -/

/-- `quote_currencies = ['USDT', 'USDC', 'BUSD', 'USD', 'BTC', 'ETH', 'BNB']`. -/
def quote_currencies : List (List Char) :=
  ["USDT", "USDC", "BUSD", "USD", "BTC", "ETH", "BNB"].map String.toList

/-- `DataConverter.extract_token_symbol`: first quote currency in the list
that is a suffix of the pair symbol is stripped (`pair_symbol[:-len(quote)]`);
`None` when no suffix matches. -/
def extract_token_symbol (pairSymbol : List Char) : Option (List Char) :=
  match quote_currencies.find? (fun q => q.isSuffixOf pairSymbol) with
  | some q => some (pairSymbol.take (pairSymbol.length - q.length))
  | none => none

/-- `DataConverter.convert_to_btc`: `0` when `btc_price == 0`, else the
quotient (the `except` branch cannot trigger on exact rationals). -/
def convert_to_btc (amountUsd btcPrice : ℚ) : ℚ :=
  if btcPrice = 0 then 0 else amountUsd / btcPrice

/-! ### Per-pair merge (api/binance.py `collect_pair_data`,
api/bybit.py `collect_pair_data`)

Each sub-fetch result is an `Option` (a failed or exception-yielding fetch
contributes `None`).  Python truthiness of a `Decimal` is `≠ 0`; a returned
dict is always truthy. -/

/-- Fields of the Binance `get_24hr_ticker` result used downstream. -/
structure Ticker24hBinance where
  volume : ℚ
  quoteVolume : ℚ
  count : ℕ
deriving DecidableEq, Repr

/-- Fields of the Bybit `get_ticker` result used downstream. -/
structure BybitTicker where
  lastPrice : ℚ
  volume24h : ℚ
  turnover24h : ℚ
deriving DecidableEq, Repr

/-- The per-pair record dict produced by `collect_pair_data` on either
exchange (`trade_count_24h` is only populated by Binance). -/
structure PairDataRec where
  symbol : List Char
  open_interest_contracts : Option ℚ
  open_interest_usd : Option ℚ
  funding_rate : Option ℚ
  price : Option ℚ
  volume_24h : Option ℚ
  trade_count_24h : Option ℕ
deriving DecidableEq, Repr

/-- `BinanceAPI.collect_pair_data` result merge (api/binance.py lines
182-201): `open_interest_usd = openInterest * price` only when
`open_interest_data and price` is truthy (price present and nonzero). -/
def collect_pair_data_binance (symbol : List Char) (openInterest : Option ℚ)
    (fundingRate : Option ℚ) (price : Option ℚ)
    (ticker : Option Ticker24hBinance) : PairDataRec :=
  let open_interest_usd : Option ℚ :=
    match openInterest, price with
    | some oi, some p => if p = 0 then none else some (oi * p)
    | _, _ => none
  { symbol := symbol
    open_interest_contracts := openInterest
    open_interest_usd := open_interest_usd
    funding_rate := fundingRate
    price := price
    volume_24h := ticker.map Ticker24hBinance.quoteVolume
    trade_count_24h := ticker.map Ticker24hBinance.count }

/-- `BybitAPI.collect_pair_data` result merge (api/bybit.py lines 227-252):
contracts and USD value are both set only when OI data and ticker data are
both present; `price`/`volume_24h` come from the ticker alone. -/
def collect_pair_data_bybit (symbol : List Char) (openInterest : Option ℚ)
    (fundingRate : Option ℚ) (ticker : Option BybitTicker) : PairDataRec :=
  let contractsAndUsd : Option ℚ × Option ℚ :=
    match openInterest, ticker with
    | some oi, some tk => (some oi, some (oi * tk.lastPrice))
    | _, _ => (none, none)
  { symbol := symbol
    open_interest_contracts := contractsAndUsd.1
    open_interest_usd := contractsAndUsd.2
    funding_rate := fundingRate
    price := ticker.map BybitTicker.lastPrice
    volume_24h := ticker.map BybitTicker.turnover24h
    trade_count_24h := none }

/-! ### Merge with CoinMarketCap data and persistence
(main.py `process_and_save_data`) -/

/-- Fields of a `cmc_data[token]` entry used by `process_and_save_data`. -/
structure CmcTokenData where
  price_usd : Option ℚ
  volume_24h_usd : Option ℚ
  market_cap_usd : Option ℚ
deriving DecidableEq, Repr

/-- One row inserted into `futures_data`, with its pair and token symbols in
place of the surrogate `pair_id`. -/
structure FuturesRow where
  pair_symbol : List Char
  token_symbol : List Char
  open_interest_contracts : Option ℚ
  open_interest_usd : Option ℚ
  funding_rate : Option ℚ
  volume_btc : Option ℚ
  volume_usd : Option ℚ
  price_usd : Option ℚ
  market_cap_usd : Option ℚ
  btc_price : ℚ
deriving DecidableEq, Repr

/-- main.py lines 166-172: `volume_btc = None` unless
`data.get('volume_24h') and btc_price and btc_price > 0` is truthy, in which
case `converter.convert_to_btc(volume_24h, btc_price)`. -/
def computeVolumeBtc (volume_24h : Option ℚ) (btc_price : ℚ) : Option ℚ :=
  match volume_24h with
  | none => none
  | some v =>
    if v ≠ 0 ∧ btc_price ≠ 0 ∧ 0 < btc_price then some (convert_to_btc v btc_price)
    else none

/-- `FuturesDataCollector.process_and_save_data`: `btc_price =
cmc_data.get('_btc_price', Decimal('0'))`; records whose token symbol cannot
be extracted (or is empty, Python falsy) are skipped; the rest are saved.
The DB upserts are modelled by the returned row list. -/
def process_and_save_data (exchangeData : List PairDataRec)
    (cmcData : List Char → Option CmcTokenData) (btcPriceOpt : Option ℚ) :
    List FuturesRow :=
  let btc_price := btcPriceOpt.getD 0
  exchangeData.filterMap (fun d =>
    match extract_token_symbol d.symbol with
    | none => none
    | some tok =>
      if tok = [] then none
      else
        let cmcTok := cmcData tok
        some { pair_symbol := d.symbol
               token_symbol := tok
               open_interest_contracts := d.open_interest_contracts
               open_interest_usd := d.open_interest_usd
               funding_rate := d.funding_rate
               volume_btc := computeVolumeBtc d.volume_24h btc_price
               volume_usd := cmcTok.bind CmcTokenData.volume_24h_usd
               price_usd := cmcTok.bind CmcTokenData.price_usd
               market_cap_usd := cmcTok.bind CmcTokenData.market_cap_usd
               btc_price := btc_price })

/-! ### DatabaseManager.save_trades (test.py lines 589-666)

The `large_trades` table is modelled as a list of rows; `id` is the primary
key.  `INSERT IGNORE ... executemany` inserts rows one by one, skipping any
row whose `id` is already present; `cursor.rowcount` is the number actually
inserted. -/

/-- The fields of a `Trade` that `save_trades` persists. -/
structure TradeRec where
  id : ℕ
  symbol : List Char
  price : ℚ
  qty : ℚ
  time : ℕ
  is_buyer_maker : Bool
  base_asset : List Char
  quote_asset : List Char
  value_usd : ℚ
deriving DecidableEq, Repr

/-- A persisted `large_trades` row (numeric casts kept exact). -/
structure TradeRow where
  id : ℕ
  symbol : List Char
  price : ℚ
  quantity : ℚ
  value_usd : ℚ
  base_asset : List Char
  quote_asset : List Char
  is_buyer_maker : Bool
  trade_time : ℕ
deriving DecidableEq, Repr

/-- The row a trade is stored as. -/
def toRow (t : TradeRec) : TradeRow :=
  { id := t.id, symbol := t.symbol, price := t.price, quantity := t.qty
    value_usd := t.value_usd, base_asset := t.base_asset
    quote_asset := t.quote_asset, is_buyer_maker := t.is_buyer_maker
    trade_time := t.time }

/-- The ids currently stored in the table. -/
def dbIds (db : List TradeRow) : List ℕ := db.map TradeRow.id

/-- `INSERT IGNORE` semantics of `executemany`: insert each row whose primary
key is not yet present, in order; also return the count of inserted rows
(`cursor.rowcount`). -/
def insertIgnore : List TradeRow → List TradeRow → List TradeRow × ℕ
  | db, [] => (db, 0)
  | db, r :: rs =>
    if decide (r.id ∈ dbIds db) then insertIgnore db rs
    else
      let rest := insertIgnore (db ++ [r]) rs
      (rest.1, rest.2 + 1)

/-- `DatabaseManager.save_trades`: empty input returns `(0, 0)`; otherwise
existing ids are queried (`SELECT id ... WHERE id IN trade_ids`), the input
is split into duplicates and new trades, and only the new trades are
inserted with `INSERT IGNORE`.  Returns (table after the call, new count,
duplicate count). -/
def save_trades (db : List TradeRow) (trades : List TradeRec) :
    List TradeRow × ℕ × ℕ :=
  if trades.isEmpty then (db, 0, 0)
  else
    let tradeIds := trades.map TradeRec.id
    let existingIds := (dbIds db).filter (fun i => decide (i ∈ tradeIds))
    let dupCount := (trades.filter (fun t => decide (t.id ∈ existingIds))).length
    let newTrades := trades.filter (fun t => !decide (t.id ∈ existingIds))
    let inserted := insertIgnore db (newTrades.map toRow)
    (inserted.1, inserted.2, dupCount)

/-! ### Database.save_api_error (db/database.py lines 124-133)

The method truncates the message to 1000 characters and executes a single
INSERT with no try/except around it: an exception from the cursor
propagates to the caller.  The outcome of the underlying execute is made
explicit. -/

/-- Outcome of `cursor.execute` for the `api_errors` INSERT. -/
inductive DbOutcome
  | success
  | failure (exn : List Char)
deriving DecidableEq, Repr

/-- A persisted `api_errors` row. -/
structure ApiErrorRow where
  exchange : List Char
  endpoint : List Char
  error_code : List Char
  error_message : List Char
deriving DecidableEq, Repr

/-- `Database.save_api_error`: inserts
`(exchange, endpoint, error_code, error_message[:1000])`; a persistence
failure is re-raised to the caller (there is no handler in the method). -/
def save_api_error (outcome : DbOutcome) (exchange endpoint code msg : List Char) :
    Except (List Char) ApiErrorRow :=
  match outcome with
  | .success => .ok ⟨exchange, endpoint, code, msg.take 1000⟩
  | .failure e => .error e

/-! ### Collector batching (main.py `collect_exchange_data`)

Per-pair tasks are gathered in fixed-size batches with
`asyncio.gather(..., return_exceptions=True)`; exception results are logged
and skipped, the rest are appended to `all_data`. -/

/-- Split a list into consecutive batches of size `batchSize`
(`tasks[i:i + batch_size]`); `fuel` is an upper bound on the recursion depth
(the list length suffices). -/
def toBatchesGo (batchSize : ℕ) : ℕ → List α → List (List α)
  | 0, _ => []
  | _, [] => []
  | fuel + 1, l => l.take batchSize :: toBatchesGo batchSize fuel (l.drop batchSize)

/-- `for i in range(0, len(tasks), batch_size): batch = tasks[i:i+batch_size]`. -/
def toBatches (batchSize : ℕ) (l : List α) : List (List α) :=
  toBatchesGo batchSize l.length l

/-- `FuturesDataCollector.collect_exchange_data` result collection: each
batch's outcomes are examined in order; an `Exception` result is logged and
skipped, any other result is appended to `all_data`. -/
def collect_exchange_data (outcomes : List (Except ε ρ)) (batchSize : ℕ) :
    List ρ :=
  (toBatches batchSize outcomes).foldl
    (fun allData batch =>
      batch.foldl
        (fun acc r => match r with | .error _ => acc | .ok v => acc ++ [v])
        allData)
    []

/-! ### Retry behaviour

api/binance.py `_make_request` is wrapped by
`tenacity.retry(stop=stop_after_attempt(3), retry=retry_if_exception_type((ClientError, TimeoutError)))`;
one attempt raises `ClientError` on a 429 (after sleeping the advertised
cool-down) and on any other non-200 status, and re-raises transport errors.

test.py `BinanceClient.get_recent_trades` retries itself recursively with
`retry_count` bounded by `MAX_RETRIES = 3`: a 429/418 retries after the
`Retry-After` sleep, a 400 returns `[]` immediately, any other error status
(`raise_for_status`) or exception retries after `RETRY_DELAY`, and once
`retry_count` reaches 3 a failing attempt returns `[]`. -/

/-- What one HTTP attempt produces at the transport level. -/
inductive AttemptOutcome
  | http (status : ℕ) (body : ℕ)
  | netError
  | timeout
deriving DecidableEq, Repr

/-- The two retryable exception classes of the tenacity configuration. -/
inductive FetchError
  | clientError
  | timeoutError
deriving DecidableEq, Repr

/-- One attempt of `BinanceAPI._make_request`. -/
def binanceAttempt : AttemptOutcome → Except FetchError ℕ
  | .http status body =>
    if status = 429 then .error .clientError
    else if status ≠ 200 then .error .clientError
    else .ok body
  | .netError => .error .clientError
  | .timeout => .error .timeoutError

/-- `retry_if_exception_type((aiohttp.ClientError, asyncio.TimeoutError))`:
both modelled error classes are retryable. -/
def isRetryable : FetchError → Bool := fun _ => true

/-- tenacity retry loop with `budget` attempts remaining and `made` attempts
already performed; returns (total attempts performed, final outcome). -/
def retryCall (attempt : ℕ → Except FetchError ℕ) :
    ℕ → ℕ → ℕ × Except FetchError ℕ
  | 0, made => (made, .error .clientError)
  | budget + 1, made =>
    match attempt made with
    | .ok b => (made + 1, .ok b)
    | .error e =>
      if budget = 0 then (made + 1, .error e)
      else if isRetryable e then retryCall attempt budget (made + 1)
      else (made + 1, .error e)

/-- `BinanceAPI._make_request` under `stop_after_attempt(3)`: `resps i` is
the transport outcome of the `i`-th attempt. -/
def binanceMakeRequest (resps : ℕ → AttemptOutcome) : ℕ × Except FetchError ℕ :=
  retryCall (fun i => binanceAttempt (resps i)) 3 0

/-- What one attempt of `get_recent_trades` observes: an HTTP response with
a status and (abstract) trade list body, or an exception anywhere in the
attempt. -/
inductive TradesOutcome
  | http (status : ℕ) (body : List ℕ)
  | exn
deriving DecidableEq, Repr

/-- `MAX_RETRIES = 3` (test.py line 94). -/
def MAX_RETRIES : ℕ := 3

/-- Dispatch on one response of `get_recent_trades`: 429/418 take the retry
path, 400 returns `[]` at once, any other status `>= 400` raises
(`raise_for_status`) into the retry path, and a 200 returns the body.
`onFail` is what the retry path produces. -/
def handleTradesResp : TradesOutcome → ℕ × List ℕ → ℕ × List ℕ
  | .http status body, onFail =>
    if status = 429 ∨ status = 418 then onFail
    else if status = 400 then (1, [])
    else if 400 ≤ status then onFail
    else (1, body)
  | .exn, onFail => onFail

/-- `get_recent_trades` with `remaining = MAX_RETRIES - retry_count` retries
left; `idx` numbers the attempts.  Returns (attempts performed, result).
With no retries left a failing attempt returns `[]`. -/
def getRecentTradesGo (resps : ℕ → TradesOutcome) : ℕ → ℕ → ℕ × List ℕ
  | 0, idx => handleTradesResp (resps idx) (1, [])
  | r + 1, idx =>
    let rest := getRecentTradesGo resps r (idx + 1)
    handleTradesResp (resps idx) (rest.1 + 1, rest.2)

/-- `BinanceClient.get_recent_trades(symbol)` (initial `retry_count = 0`). -/
def getRecentTrades (resps : ℕ → TradesOutcome) : ℕ × List ℕ :=
  getRecentTradesGo resps MAX_RETRIES 0

/-! ### TradingDataAnalyzer pair filtering (test.py lines 337-474) -/

/-- `STABLECOINS` (test.py lines 66-72). -/
def STABLECOINS : List (List Char) :=
  ["USDT", "USDC", "BUSD", "TUSD", "USDP", "USDD", "GUSD",
   "FRAX", "LUSD", "USTC", "ALUSD", "CUSD", "CEUR", "EUROC",
   "AGEUR", "AEUR", "STEUR", "EURS", "EURT", "EURC", "PAX",
   "FDUSD", "PYUSD", "USDB", "USDJ", "USDX", "USDQ", "TRIBE",
   "XUSD"].map String.toList

/-- `WRAPPED_TOKENS` (test.py lines 75-83). -/
def WRAPPED_TOKENS : List (List Char) :=
  ["WBTC", "WETH", "WBNB", "WBETH", "WBCH", "WLTC", "WZEC",
   "WMATIC", "WAVAX", "WFTM", "WONE", "WCRO", "WNEAR", "WKAVA",
   "WXRP", "WADA", "WDOT", "WSOL", "WTRX", "WEOS", "WXLM",
   "WALGO", "WICP", "WEGLD", "WXTZ", "WFIL", "WAXL", "WFLOW",
   "WMINA", "WGLMR", "WKLAY", "WRUNE", "WZIL", "WAR", "WROSE",
   "WVET", "WQTUM", "WNEO", "WHBAR", "WZRX", "WBAT", "WENJ",
   "WCHZ", "WMANA", "WGRT", "W1INCH", "WCOMP", "WSNX", "WCRV"].map String.toList

/-- `MIN_VOLUME_USD = 1_000_000` (test.py line 62). -/
def MIN_VOLUME_USD : ℚ := 1000000

/-- `TradingDataAnalyzer.is_stablecoin_pair`. -/
def is_stablecoin_pair (baseAsset quoteAsset : List Char) : Bool :=
  decide (baseAsset ∈ STABLECOINS) && decide (quoteAsset ∈ STABLECOINS)

/-- `asset.startswith('W')`. -/
def startsWithW : List Char → Bool
  | [] => false
  | c :: _ => c == 'W'

/-- `TradingDataAnalyzer.is_wrapped_token`:
`asset in WRAPPED_TOKENS or asset.startswith('W') and len(asset) > 2`. -/
def is_wrapped_token (asset : List Char) : Bool :=
  decide (asset ∈ WRAPPED_TOKENS) || (startsWithW asset && decide (2 < asset.length))

/-- One entry of `exchange_info['symbols']` (fields the filter reads). -/
structure SymbolInfo where
  symbol : List Char
  status : List Char
  isSpotTradingAllowed : Bool
  baseAsset : List Char
  quoteAsset : List Char
deriving DecidableEq, Repr

/-- One entry of the 24hr ticker list (fields read downstream). -/
structure Ticker24 where
  symbol : List Char
  quoteVolume : ℚ
  lastPrice : ℚ
deriving DecidableEq, Repr

/-- `TradingPairInfo` (test.py lines 189-196). -/
structure TradingPairInfo where
  symbol : List Char
  base_asset : List Char
  quote_asset : List Char
  volume_24h_usd : ℚ
  quote_price_usd : ℚ
deriving DecidableEq, Repr

/-- `self.quote_prices_usd` initial contents: USDT/USDC/BUSD/FDUSD at `1.0`;
`.get(key, Decimal('0'))` is modelled by a total function defaulting to 0. -/
def initialQuotePrices : List Char → ℚ := fun q =>
  if q ∈ (["USDT", "USDC", "BUSD", "FDUSD"].map String.toList) then 1 else 0

/-- Point update of the quote-price dict. -/
def setPrice (p : List Char → ℚ) (k : List Char) (v : ℚ) : List Char → ℚ :=
  fun q => if q = k then v else p q

/-- `TradingDataAnalyzer.update_quote_prices`: scans the tickers and stores
the BTCUSDT/ETHUSDT/BNBUSDT last prices under BTC/ETH/BNB. -/
def update_quote_prices (prices : List Char → ℚ) (tickers : List Ticker24) :
    List Char → ℚ :=
  tickers.foldl
    (fun p t =>
      if t.symbol = "BTCUSDT".toList then setPrice p "BTC".toList t.lastPrice
      else if t.symbol = "ETHUSDT".toList then setPrice p "ETH".toList t.lastPrice
      else if t.symbol = "BNBUSDT".toList then setPrice p "BNB".toList t.lastPrice
      else p)
    prices

/-- `ticker_map = {t['symbol']: t for t in tickers}` followed by
`ticker_map.get(symbol)`: the last ticker with a given symbol wins. -/
def tickerLookup (tickers : List Ticker24) (s : List Char) : Option Ticker24 :=
  tickers.reverse.find? (fun t => t.symbol = s)

/-- `TradingDataAnalyzer.calculate_volume_usd`:
`Decimal(volume) * self.quote_prices_usd.get(quote_asset, Decimal('0'))`. -/
def calculate_volume_usd (prices : List Char → ℚ) (volume : ℚ)
    (quoteAsset : List Char) : ℚ :=
  volume * prices quoteAsset

/-- `TradingDataAnalyzer.filter_trading_pairs`: keeps active spot pairs that
are not stablecoin pairs, whose base asset is not a wrapped token, that have
a ticker, and whose 24h USD volume is at least `MIN_VOLUME_USD`. -/
def filter_trading_pairs (symbols : List SymbolInfo) (tickers : List Ticker24) :
    List TradingPairInfo :=
  let prices := update_quote_prices initialQuotePrices tickers
  symbols.foldl
    (fun acc info =>
      if info.status ≠ "TRADING".toList ∨ info.isSpotTradingAllowed = false then acc
      else if is_stablecoin_pair info.baseAsset info.quoteAsset then acc
      else if is_wrapped_token info.baseAsset then acc
      else
        match tickerLookup tickers info.symbol with
        | none => acc
        | some ticker =>
          if calculate_volume_usd prices ticker.quoteVolume info.quoteAsset
              < MIN_VOLUME_USD then acc
          else acc ++ [{ symbol := info.symbol
                         base_asset := info.baseAsset
                         quote_asset := info.quoteAsset
                         volume_24h_usd :=
                           calculate_volume_usd prices ticker.quoteVolume info.quoteAsset
                         quote_price_usd := prices info.quoteAsset }])
    []

/-! ## Helper lemmas -/

theorem retryCall_attempts_le (attempt : ℕ → Except FetchError ℕ) :
    ∀ budget made, (retryCall attempt budget made).1 ≤ made + budget := by
  intro budget
  induction budget with
  | zero => intro made; simp [retryCall]
  | succ b ih =>
    intro made
    simp only [retryCall]
    cases attempt made with
    | ok v => simp
    | error e =>
      by_cases hb : b = 0
      · simp [hb]
      · have := ih (made + 1)
        simp [hb, isRetryable]
        omega

theorem handleTradesResp_fst (o : TradesOutcome) (onFail : ℕ × List ℕ) :
    (handleTradesResp o onFail).1 = onFail.1 ∨ (handleTradesResp o onFail).1 = 1 := by
  cases o with
  | http status body =>
    simp only [handleTradesResp]
    split_ifs <;> simp
  | exn => simp [handleTradesResp]

theorem getRecentTradesGo_attempts_le (resps : ℕ → TradesOutcome) :
    ∀ r idx, (getRecentTradesGo resps r idx).1 ≤ r + 1 := by
  intro r
  induction r with
  | zero =>
    intro idx
    rcases handleTradesResp_fst (resps idx) (1, []) with h | h <;>
      simp [getRecentTradesGo, h]
  | succ n ih =>
    intro idx
    have hrest := ih (idx + 1)
    rcases handleTradesResp_fst (resps idx)
        ((getRecentTradesGo resps n (idx + 1)).1 + 1,
         (getRecentTradesGo resps n (idx + 1)).2) with h | h <;>
      simp [getRecentTradesGo, h] <;> omega

theorem getRecentTradesGo_all_exn (resps : ℕ → TradesOutcome)
    (hexn : ∀ i, resps i = TradesOutcome.exn) :
    ∀ r idx, getRecentTradesGo resps r idx = (r + 1, []) := by
  intro r
  induction r with
  | zero => intro idx; simp [getRecentTradesGo, hexn idx, handleTradesResp]
  | succ n ih =>
    intro idx
    simp [getRecentTradesGo, hexn idx, handleTradesResp, ih (idx + 1)]

theorem collect_inner_fold (batch : List (Except ε ρ)) (acc : List ρ) :
    batch.foldl
        (fun a r => match r with | .error _ => a | .ok v => a ++ [v]) acc
      = acc ++ batch.filterMap Except.toOption := by
  induction batch generalizing acc with
  | nil => simp
  | cons r rs ih => cases r <;> simp [ih, Except.toOption]

theorem collect_outer_fold (batchSize : ℕ) (hbs : 0 < batchSize) :
    ∀ (fuel : ℕ) (l : List (Except ε ρ)) (acc : List ρ), l.length ≤ fuel →
      (toBatchesGo batchSize fuel l).foldl
          (fun allData batch =>
            batch.foldl
              (fun a r => match r with | .error _ => a | .ok v => a ++ [v])
              allData)
          acc
        = acc ++ l.filterMap Except.toOption := by
  intro fuel
  induction fuel with
  | zero =>
    intro l acc h
    have hl : l = [] := List.eq_nil_of_length_eq_zero (Nat.le_zero.mp h)
    simp [toBatchesGo, hl]
  | succ n ih =>
    intro l acc h
    cases l with
    | nil => simp [toBatchesGo]
    | cons x xs =>
      simp only [toBatchesGo, List.foldl_cons]
      rw [collect_inner_fold, ih ((x :: xs).drop batchSize)]
      · rw [List.append_assoc, ← List.filterMap_append, List.take_append_drop]
      · have hlen : ((x :: xs).drop batchSize).length = (x :: xs).length - batchSize :=
          List.length_drop batchSize (x :: xs)
        rw [hlen]
        simp only [List.length_cons] at h ⊢
        omega

theorem filterMap_toOption_length (l : List (Except ε ρ)) :
    (l.filterMap Except.toOption).length + l.countP (fun r => !r.isOk) = l.length := by
  induction l with
  | nil => simp
  | cons r rs ih =>
    cases r with
    | error e =>
      have h1 : (!(Except.error e : Except ε ρ).isOk) = true := rfl
      rw [List.filterMap_cons, List.countP_cons, h1]
      simp [Except.toOption]
      omega
    | ok v =>
      have h1 : (!(Except.ok v : Except ε ρ).isOk) = false := rfl
      rw [List.filterMap_cons, List.countP_cons, h1]
      simp [Except.toOption]
      omega

theorem computeVolumeBtc_zero (v : Option ℚ) : computeVolumeBtc v 0 = none := by
  cases v with
  | none => rfl
  | some x => simp [computeVolumeBtc]

theorem process_row_shape {exchangeData : List PairDataRec}
    {cmcData : List Char → Option CmcTokenData} {btcPriceOpt : Option ℚ}
    {row : FuturesRow}
    (hrow : row ∈ process_and_save_data exchangeData cmcData btcPriceOpt) :
    ∃ d ∈ exchangeData, ∃ tok, extract_token_symbol d.symbol = some tok ∧
      tok ≠ [] ∧ row.pair_symbol = d.symbol ∧
      row.volume_btc = computeVolumeBtc d.volume_24h (btcPriceOpt.getD 0) := by
  simp only [process_and_save_data] at hrow
  rw [List.mem_filterMap] at hrow
  obtain ⟨d, hd, heq⟩ := hrow
  rcases hex : extract_token_symbol d.symbol with _ | tok <;> rw [hex] at heq
  · simp at heq
  · by_cases ht : tok = []
    · simp [ht] at heq
    · simp only [ht, if_false, Option.some_inj] at heq
      refine ⟨d, hd, tok, hex, ht, ?_, ?_⟩ <;> rw [← heq]

theorem quote_length_le_four : ∀ q ∈ quote_currencies, q.length ≤ 4 := by decide

theorem extract_unfold (pair : List Char) :
    extract_token_symbol pair =
      if "USDT".toList.isSuffixOf pair = true then some (pair.take (pair.length - 4))
      else if "USDC".toList.isSuffixOf pair = true then some (pair.take (pair.length - 4))
      else if "BUSD".toList.isSuffixOf pair = true then some (pair.take (pair.length - 4))
      else if "USD".toList.isSuffixOf pair = true then some (pair.take (pair.length - 3))
      else if "BTC".toList.isSuffixOf pair = true then some (pair.take (pair.length - 3))
      else if "ETH".toList.isSuffixOf pair = true then some (pair.take (pair.length - 3))
      else if "BNB".toList.isSuffixOf pair = true then some (pair.take (pair.length - 3))
      else none := by
  unfold extract_token_symbol quote_currencies
  simp only [List.map, List.find?]
  by_cases h1 : (['U','S','D','T'].isSuffixOf pair) = true
  · simp [List.isSuffixOf_iff_suffix.mp h1, h1]
  by_cases h2 : (['U','S','D','C'].isSuffixOf pair) = true
  · simp [List.isSuffixOf_iff_suffix.mp h2, h1, h2, List.isSuffixOf_iff_suffix]
  by_cases h3 : (['B','U','S','D'].isSuffixOf pair) = true
  · simp [List.isSuffixOf_iff_suffix.mp h3, h1, h2, h3, List.isSuffixOf_iff_suffix]
  by_cases h4 : (['U','S','D'].isSuffixOf pair) = true
  · simp [List.isSuffixOf_iff_suffix.mp h4, h1, h2, h3, h4, List.isSuffixOf_iff_suffix]
  by_cases h5 : (['B','T','C'].isSuffixOf pair) = true
  · simp [List.isSuffixOf_iff_suffix.mp h5, h1, h2, h3, h4, h5, List.isSuffixOf_iff_suffix]
  by_cases h6 : (['E','T','H'].isSuffixOf pair) = true
  · simp [List.isSuffixOf_iff_suffix.mp h6, h1, h2, h3, h4, h5, h6, List.isSuffixOf_iff_suffix]
  by_cases h7 : (['B','N','B'].isSuffixOf pair) = true
  · simp [List.isSuffixOf_iff_suffix.mp h7, h1, h2, h3, h4, h5, h6, h7, List.isSuffixOf_iff_suffix]
  simp [h1, h2, h3, h4, h5, h6, h7, List.isSuffixOf_iff_suffix]

theorem dbIds_append (db : List TradeRow) (rs : List TradeRow) :
    dbIds (db ++ rs) = dbIds db ++ dbIds rs := by
  simp [dbIds]

theorem toRow_id (t : TradeRec) : (toRow t).id = t.id := rfl

theorem rows_ids (ts : List TradeRec) :
    dbIds (ts.map toRow) = ts.map TradeRec.id := by
  induction ts with
  | nil => rfl
  | cons t ts ih => simp [dbIds] at ih ⊢; exact ⟨rfl, ih⟩

theorem insertIgnore_fresh :
    ∀ (rs db : List TradeRow), (∀ r ∈ rs, r.id ∉ dbIds db) →
      (dbIds rs).Nodup → insertIgnore db rs = (db ++ rs, rs.length) := by
  intro rs
  induction rs with
  | nil => intro db _ _; simp [insertIgnore]
  | cons x xs ih =>
    intro db hfresh hnd
    have hx : x.id ∉ dbIds db := hfresh x (List.mem_cons_self x xs)
    have hnd' := hnd
    rw [show dbIds (x :: xs) = x.id :: dbIds xs from rfl, List.nodup_cons] at hnd'
    have hfresh2 : ∀ r ∈ xs, r.id ∉ dbIds (db ++ [x]) := by
      intro r hr
      rw [dbIds_append]
      rw [List.mem_append]
      rintro (h | h)
      · exact hfresh r (List.mem_cons_of_mem x hr) h
      · rw [show dbIds [x] = [x.id] from rfl, List.mem_singleton] at h
        exact hnd'.1 (h ▸ List.mem_map_of_mem TradeRow.id hr)
    simp only [insertIgnore]
    rw [if_neg (by simpa using hx), ih (db ++ [x]) hfresh2 hnd'.2]
    simp

theorem insertIgnore_nodup :
    ∀ (rs db : List TradeRow), (dbIds db).Nodup →
      (dbIds (insertIgnore db rs).1).Nodup := by
  intro rs
  induction rs with
  | nil => intro db h; simpa [insertIgnore] using h
  | cons x xs ih =>
    intro db h
    simp only [insertIgnore]
    by_cases hx : x.id ∈ dbIds db
    · rw [if_pos (by simpa using hx)]
      exact ih db h
    · rw [if_neg (by simpa using hx)]
      have hnd : (dbIds (db ++ [x])).Nodup := by
        rw [dbIds_append]
        refine List.Nodup.append h (List.nodup_singleton x.id) ?_
        intro a ha hb
        rw [show dbIds [x] = [x.id] from rfl, List.mem_singleton] at hb
        exact hx (hb ▸ ha)
      exact ih (db ++ [x]) hnd

theorem mem_existing_iff (db : List TradeRow) (T : List TradeRec) (t : TradeRec)
    (ht : t ∈ T) :
    t.id ∈ (dbIds db).filter (fun i => decide (i ∈ T.map TradeRec.id)) ↔
      t.id ∈ dbIds db := by
  rw [List.mem_filter]
  simp only [decide_eq_true_eq]
  exact and_iff_left (List.mem_map_of_mem TradeRec.id ht)

theorem save_trades_spec (db : List TradeRow) (T : List TradeRec)
    (hne : T.isEmpty = false) (hT : (T.map TradeRec.id).Nodup) :
    save_trades db T =
      (db ++ (T.filter (fun t => !decide (t.id ∈ dbIds db))).map toRow,
       (T.filter (fun t => !decide (t.id ∈ dbIds db))).length,
       (T.filter (fun t => decide (t.id ∈ dbIds db))).length) := by
  simp only [save_trades, hne, Bool.false_eq_true, if_false]
  have hcongr1 : T.filter (fun t => decide (t.id ∈ (dbIds db).filter
        (fun i => decide (i ∈ T.map TradeRec.id))))
      = T.filter (fun t => decide (t.id ∈ dbIds db)) :=
    List.filter_congr (fun t ht =>
      decide_eq_decide.mpr (mem_existing_iff db T t ht))
  have hcongr2 : T.filter (fun t => !decide (t.id ∈ (dbIds db).filter
        (fun i => decide (i ∈ T.map TradeRec.id))))
      = T.filter (fun t => !decide (t.id ∈ dbIds db)) :=
    List.filter_congr (fun t ht => by
      rw [decide_eq_decide.mpr (mem_existing_iff db T t ht)])
  rw [hcongr1, hcongr2]
  have hfresh : ∀ r ∈ (T.filter (fun t => !decide (t.id ∈ dbIds db))).map toRow,
      r.id ∉ dbIds db := by
    intro r hr
    rw [List.mem_map] at hr
    obtain ⟨t, ht, rfl⟩ := hr
    rw [List.mem_filter] at ht
    rw [toRow_id]
    simpa using ht.2
  have hnd : (dbIds ((T.filter (fun t => !decide (t.id ∈ dbIds db))).map toRow)).Nodup := by
    rw [rows_ids]
    exact List.Nodup.sublist (List.Sublist.map _ (List.filter_sublist T)) hT
  rw [insertIgnore_fresh _ db hfresh hnd]
  simp

theorem save_trades_all_present (db : List TradeRow) (T : List TradeRec)
    (hne : T.isEmpty = false) (hall : ∀ t ∈ T, t.id ∈ dbIds db) :
    save_trades db T = (db, 0, T.length) := by
  simp only [save_trades, hne, Bool.false_eq_true, if_false]
  have h1 : ∀ t ∈ T, (decide (t.id ∈ (dbIds db).filter
      (fun i => decide (i ∈ T.map TradeRec.id)))) = true := by
    intro t ht
    simpa using (mem_existing_iff db T t ht).mpr (hall t ht)
  have hdup : T.filter (fun t => decide (t.id ∈ (dbIds db).filter
      (fun i => decide (i ∈ T.map TradeRec.id)))) = T :=
    List.filter_eq_self.mpr h1
  have hnewnil : T.filter (fun t => !decide (t.id ∈ (dbIds db).filter
      (fun i => decide (i ∈ T.map TradeRec.id)))) = [] := by
    rw [List.filter_eq_nil_iff]
    intro t ht
    rw [h1 t ht]
    simp
  rw [hdup, hnewnil]
  simp [insertIgnore]

theorem filter_fold_preserves (tickers : List Ticker24) (prices : List Char → ℚ) :
    ∀ (symbols : List SymbolInfo) (acc : List TradingPairInfo),
      (∀ q ∈ acc, is_stablecoin_pair q.base_asset q.quote_asset = false ∧
        is_wrapped_token q.base_asset = false) →
      ∀ p ∈ symbols.foldl
          (fun acc info =>
            if info.status ≠ "TRADING".toList ∨ info.isSpotTradingAllowed = false then acc
            else if is_stablecoin_pair info.baseAsset info.quoteAsset then acc
            else if is_wrapped_token info.baseAsset then acc
            else
              match tickerLookup tickers info.symbol with
              | none => acc
              | some ticker =>
                if calculate_volume_usd prices ticker.quoteVolume info.quoteAsset
                    < MIN_VOLUME_USD then acc
                else acc ++ [{ symbol := info.symbol
                               base_asset := info.baseAsset
                               quote_asset := info.quoteAsset
                               volume_24h_usd :=
                                 calculate_volume_usd prices ticker.quoteVolume info.quoteAsset
                               quote_price_usd := prices info.quoteAsset }])
          acc,
        is_stablecoin_pair p.base_asset p.quote_asset = false ∧
          is_wrapped_token p.base_asset = false := by
  intro symbols
  induction symbols with
  | nil => intro acc hacc p hp; exact hacc p hp
  | cons info rest ih =>
    intro acc hacc p hp
    rw [List.foldl_cons] at hp
    refine ih _ ?_ p hp
    intro q hq
    by_cases hsk : info.status ≠ "TRADING".toList ∨ info.isSpotTradingAllowed = false
    · rw [if_pos hsk] at hq; exact hacc q hq
    rw [if_neg hsk] at hq
    by_cases hst : is_stablecoin_pair info.baseAsset info.quoteAsset = true
    · rw [if_pos hst] at hq; exact hacc q hq
    rw [if_neg hst] at hq
    by_cases hwr : is_wrapped_token info.baseAsset = true
    · rw [if_pos hwr] at hq; exact hacc q hq
    rw [if_neg hwr] at hq
    split at hq
    · exact hacc q hq
    · split at hq
      · exact hacc q hq
      · rw [List.mem_append] at hq
        rcases hq with hq | hq
        · exact hacc q hq
        · rw [List.mem_singleton] at hq
          subst hq
          exact ⟨by simpa using hst, by simpa using hwr⟩

theorem totalWeight_nil : totalWeight [] = 0 := rfl

theorem totalWeight_cons (e : ℚ × ℚ) (l : List (ℚ × ℚ)) :
    totalWeight (e :: l) = e.2 + totalWeight l := by
  simp [totalWeight]

theorem totalWeight_append (l₁ l₂ : List (ℚ × ℚ)) :
    totalWeight (l₁ ++ l₂) = totalWeight l₁ + totalWeight l₂ := by
  simp [totalWeight]

theorem totalWeight_nonneg (l : List (ℚ × ℚ)) (h : ∀ e ∈ l, 0 ≤ e.2) :
    0 ≤ totalWeight l := by
  induction l with
  | nil => simp [totalWeight]
  | cons e l ih =>
    rw [totalWeight_cons]
    exact add_nonneg (h e (List.mem_cons_self e l))
      (ih (fun f hf => h f (List.mem_cons_of_mem e hf)))

theorem totalWeight_filter_le (p : ℚ × ℚ → Bool) (l : List (ℚ × ℚ))
    (h : ∀ e ∈ l, 0 ≤ e.2) : totalWeight (l.filter p) ≤ totalWeight l := by
  induction l with
  | nil => simp
  | cons e l ih =>
    have ih' := ih (fun f hf => h f (List.mem_cons_of_mem e hf))
    rw [List.filter_cons, totalWeight_cons]
    by_cases hp : p e = true
    · rw [if_pos hp, totalWeight_cons]
      exact add_le_add_left ih' e.2
    · rw [if_neg hp]
      have := h e (List.mem_cons_self e l)
      linarith

theorem windowWeight_nil (t : ℚ) : windowWeight t [] = 0 := rfl

theorem windowWeight_cons (t : ℚ) (e : ℚ × ℚ) (l : List (ℚ × ℚ)) :
    windowWeight t (e :: l)
      = (if inWindow t e = true then e.2 else 0) + windowWeight t l := by
  rw [windowWeight, List.filter_cons]
  by_cases h : inWindow t e = true
  · rw [if_pos h, if_pos h, totalWeight_cons]; rfl
  · rw [if_neg h, if_neg h, zero_add]; rfl

theorem windowWeight_append (t : ℚ) (l₁ l₂ : List (ℚ × ℚ)) :
    windowWeight t (l₁ ++ l₂) = windowWeight t l₁ + windowWeight t l₂ := by
  rw [windowWeight, windowWeight, windowWeight, List.filter_append, totalWeight_append]

theorem windowWeight_eq_zero (t : ℚ) (l : List (ℚ × ℚ))
    (h : ∀ e ∈ l, inWindow t e = false) : windowWeight t l = 0 := by
  rw [windowWeight, List.filter_eq_nil_iff.mpr (fun e he => by simp [h e he])]
  rfl

theorem windowWeight_le_totalWeight (t : ℚ) (l : List (ℚ × ℚ))
    (h : ∀ e ∈ l, 0 ≤ e.2) : windowWeight t l ≤ totalWeight l :=
  totalWeight_filter_le _ l h

theorem windowWeight_prune (t now : ℚ) (hle : now ≤ t) (l : List (ℚ × ℚ)) :
    windowWeight t (pruneRequests now l) = windowWeight t l := by
  rw [windowWeight, windowWeight, pruneRequests, List.filter_filter]
  congr 1
  apply List.filter_congr
  intro e _
  cases hiw : inWindow t e with
  | false => simp
  | true =>
    have h1 : t - e.1 < 60 := by
      have := hiw
      unfold inWindow at this
      rw [Bool.and_eq_true, decide_eq_true_eq, decide_eq_true_eq] at this
      exact this.1
    have h2 : survives now e = true := by
      unfold survives
      rw [decide_eq_true_eq]
      linarith
    simp [h2]

theorem runLimiter_admitted_mem (maxW : ℚ) :
    ∀ (events reqs : List (ℚ × ℚ)) (e : ℚ × ℚ),
      e ∈ (runLimiter maxW reqs events).2 → e ∈ events := by
  intro events
  induction events with
  | nil => intro reqs e he; simp [runLimiter] at he
  | cons f es ih =>
    intro reqs e he
    simp only [runLimiter] at he
    split at he
    · rcases List.mem_cons.mp he with rfl | he
      · exact List.mem_cons_self e es
      · exact List.mem_cons_of_mem f (ih _ e he)
    · exact List.mem_cons_of_mem f (ih _ e he)

theorem runLimiter_window_inv (maxW t : ℚ) :
    ∀ (events reqs : List (ℚ × ℚ)),
      List.Pairwise (fun a b : ℚ × ℚ => a.1 ≤ b.1) events →
      (∀ e ∈ reqs, ∀ f ∈ events, e.1 ≤ f.1) →
      (∀ e ∈ reqs, 0 ≤ e.2) →
      (∀ e ∈ events, 0 ≤ e.2) →
      windowWeight t (runLimiter maxW reqs events).2 = 0 ∨
      windowWeight t (runLimiter maxW reqs events).2 + windowWeight t reqs ≤ maxW := by
  intro events
  induction events with
  | nil => intro reqs _ _ _ _; left; rfl
  | cons ev es ih =>
    obtain ⟨τ, ω⟩ := ev
    intro reqs hmono hfut hreqnn hevnn
    have hpc := List.pairwise_cons.mp hmono
    have hevle : ∀ f ∈ es, τ ≤ f.1 := fun f hf => hpc.1 f hf
    have hmono' := hpc.2
    have hevnn' : ∀ e ∈ es, 0 ≤ e.2 :=
      fun e he => hevnn e (List.mem_cons_of_mem (τ, ω) he)
    have hω : 0 ≤ ω := hevnn (τ, ω) (List.mem_cons_self (τ, ω) es)
    have hprsub : ∀ e ∈ pruneRequests τ reqs, e ∈ reqs :=
      fun e he => List.mem_of_mem_filter he
    have hprnn : ∀ e ∈ pruneRequests τ reqs, 0 ≤ e.2 :=
      fun e he => hreqnn e (hprsub e he)
    by_cases hadm : totalWeight (pruneRequests τ reqs) + ω ≤ maxW
    · -- the event is admitted and recorded
      have hstep : acquireStep maxW reqs τ ω
          = (pruneRequests τ reqs ++ [(τ, ω)], true) := by
        simp [acquireStep, hadm]
      have hrun : (runLimiter maxW reqs ((τ, ω) :: es)).2
          = (τ, ω) :: (runLimiter maxW (pruneRequests τ reqs ++ [(τ, ω)]) es).2 := by
        simp [runLimiter, hstep]
      rw [hrun, windowWeight_cons]
      have ihh := ih (pruneRequests τ reqs ++ [(τ, ω)]) hmono'
        (by
          intro e he f hf
          rcases List.mem_append.mp he with he | he
          · exact hfut e (hprsub e he) f (List.mem_cons_of_mem (τ, ω) hf)
          · rw [List.mem_singleton] at he
            subst he
            exact hevle f hf)
        (by
          intro e he
          rcases List.mem_append.mp he with he | he
          · exact hprnn e he
          · rw [List.mem_singleton] at he
            subst he
            exact hω)
        hevnn'
      by_cases ht1 : τ ≤ t
      · have hprw : windowWeight t (pruneRequests τ reqs) = windowWeight t reqs :=
          windowWeight_prune t τ ht1 reqs
        rw [windowWeight_append] at ihh
        by_cases hW : inWindow t (τ, ω) = true
        · rw [if_pos hW]
          have hsing : windowWeight t [(τ, ω)] = ω := by
            rw [windowWeight_cons t (τ, ω) [], if_pos hW, windowWeight_nil, add_zero]
          rcases ihh with h0 | hle
          · right
            rw [h0, add_zero]
            have hwr : windowWeight t reqs ≤ totalWeight (pruneRequests τ reqs) := by
              rw [← hprw]
              exact windowWeight_le_totalWeight t _ hprnn
            linarith
          · right
            rw [hsing, hprw] at hle
            linarith
        · rw [if_neg hW, zero_add]
          have hsing : windowWeight t [(τ, ω)] = 0 := by
            rw [windowWeight_cons t (τ, ω) [], if_neg hW, windowWeight_nil, add_zero]
          rcases ihh with h0 | hle
          · left; exact h0
          · right
            rw [hsing, hprw] at hle
            linarith
      · -- τ > t : nothing admitted from here on lies in the window at t
        left
        have hW' : inWindow t (τ, ω) = false := by
          unfold inWindow
          rw [decide_eq_false (by intro hh; exact ht1 hh : ¬ (τ, ω).1 ≤ t)]
          simp
        rw [hW']
        simp only [Bool.false_eq_true, if_false, zero_add]
        apply windowWeight_eq_zero
        intro e he
        have hees := runLimiter_admitted_mem maxW es _ e he
        have h1 : τ ≤ e.1 := hevle e hees
        unfold inWindow
        rw [decide_eq_false (by intro hh; exact ht1 (le_trans h1 hh) : ¬ e.1 ≤ t)]
        simp
    · -- the event is rejected: the log is only pruned
      have hstep : acquireStep maxW reqs τ ω = (pruneRequests τ reqs, false) := by
        simp [acquireStep, hadm]
      have hrun : (runLimiter maxW reqs ((τ, ω) :: es)).2
          = (runLimiter maxW (pruneRequests τ reqs) es).2 := by
        simp [runLimiter, hstep]
      rw [hrun]
      have ihh := ih (pruneRequests τ reqs) hmono'
        (fun e he f hf => hfut e (hprsub e he) f (List.mem_cons_of_mem (τ, ω) hf))
        hprnn hevnn'
      by_cases ht1 : τ ≤ t
      · rcases ihh with h0 | hle
        · left; exact h0
        · right
          rwa [windowWeight_prune t τ ht1 reqs] at hle
      · left
        apply windowWeight_eq_zero
        intro e he
        have hees := runLimiter_admitted_mem maxW es _ e he
        have h1 : τ ≤ e.1 := hevle e hees
        unfold inWindow
        rw [decide_eq_false (by intro hh; exact ht1 (le_trans h1 hh) : ¬ e.1 ≤ t)]
        simp

theorem oldestTime_mem :
    ∀ (l : List (ℚ × ℚ)), l ≠ [] → ∃ e ∈ l, e.1 = oldestTime l := by
  intro l
  induction l with
  | nil => intro h; exact absurd rfl h
  | cons e rest ih =>
    intro _
    cases rest with
    | nil => exact ⟨e, List.mem_cons_self e [], rfl⟩
    | cons f rs =>
      rcases ih (by simp) with ⟨g, hg, hge⟩
      by_cases hmin : e.1 ≤ oldestTime (f :: rs)
      · refine ⟨e, List.mem_cons_self e (f :: rs), ?_⟩
        show e.1 = min e.1 (oldestTime (f :: rs))
        rw [min_eq_left hmin]
      · refine ⟨g, List.mem_cons_of_mem e hg, ?_⟩
        show g.1 = min e.1 (oldestTime (f :: rs))
        rw [min_eq_right (le_of_not_le hmin)]
        exact hge

theorem acquireLoop_terminates (maxW w : ℚ) (hw : w ≤ maxW) :
    ∀ (n : ℕ) (reqs : List (ℚ × ℚ)) (now : ℚ),
      (pruneRequests now reqs).length ≤ n →
      (acquireLoop maxW w (n + 1) reqs now).isSome = true := by
  intro n
  induction n with
  | zero =>
    intro reqs now h
    have hnil : pruneRequests now reqs = [] :=
      List.eq_nil_of_length_eq_zero (Nat.le_zero.mp h)
    have hstep : (acquireStep maxW reqs now w).2 = true := by
      simp [acquireStep, hnil, totalWeight, hw]
    simp [acquireLoop, hstep]
  | succ n ih =>
    intro reqs now h
    by_cases hstep : (acquireStep maxW reqs now w).2 = true
    · simp [acquireLoop, hstep]
    · have hpne : pruneRequests now reqs ≠ [] := by
        intro hnil
        exact hstep (by simp [acquireStep, hnil, totalWeight, hw])
      have hna : ¬ totalWeight (pruneRequests now reqs) + w ≤ maxW := by
        intro hc
        exact hstep (by simp [acquireStep, hc])
      have hstep1 : acquireStep maxW reqs now w = (pruneRequests now reqs, false) := by
        simp [acquireStep, hna]
      obtain ⟨g, hg, hge⟩ := oldestTime_mem _ hpne
      have hwait : waitTime now (pruneRequests now reqs)
          = max (1/10) (60 - (now - oldestTime (pruneRequests now reqs)) + 1) := by
        rw [waitTime, if_neg (by simpa [List.isEmpty_iff] using hpne)]
      have hdrop : (pruneRequests
            (now + waitTime now (pruneRequests now reqs))
            (pruneRequests now reqs)).length
          < (pruneRequests now reqs).length := by
        rw [pruneRequests]
        apply List.length_filter_lt_length_iff_exists.mpr
        refine ⟨g, hg, ?_⟩
        unfold survives
        rw [decide_eq_true_eq]
        push_neg
        have hge' : 60 - (now - oldestTime (pruneRequests now reqs)) + 1
            ≤ waitTime now (pruneRequests now reqs) := by
          rw [hwait]; exact le_max_right _ _
        rw [← hge] at hge'
        linarith
      have hnext : (pruneRequests
            (now + waitTime now (pruneRequests now reqs))
            (pruneRequests now reqs)).length ≤ n := by
        omega
      have hrec := ih (pruneRequests now reqs)
        (now + waitTime now (pruneRequests now reqs)) hnext
      simpa [acquireLoop, hstep1] using hrec

theorem acquireLoop_diverges (maxW w : ℚ) (hw : maxW < w) :
    ∀ (fuel : ℕ) (reqs : List (ℚ × ℚ)) (now : ℚ),
      (∀ e ∈ reqs, 0 ≤ e.2) → acquireLoop maxW w fuel reqs now = none := by
  intro fuel
  induction fuel with
  | zero => intro reqs now _; rfl
  | succ n ih =>
    intro reqs now hnn
    have hprnn : ∀ e ∈ pruneRequests now reqs, 0 ≤ e.2 :=
      fun e he => hnn e (List.mem_of_mem_filter he)
    have h0 : 0 ≤ totalWeight (pruneRequests now reqs) :=
      totalWeight_nonneg _ hprnn
    have hna : ¬ totalWeight (pruneRequests now reqs) + w ≤ maxW := by
      intro hc; linarith
    have hstep1 : acquireStep maxW reqs now w = (pruneRequests now reqs, false) := by
      simp [acquireStep, hna]
    simpa [acquireLoop, hstep1] using
      ih (pruneRequests now reqs) (now + waitTime now (pruneRequests now reqs)) hprnn

/-! ## Claim theorems -/

/-- C5 counterexample: in `BinanceAPI._make_request` (api/binance.py) a fetch
that receives HTTP 400 on every attempt is retried — the tenacity wrapper
performs 3 attempts, not 1, and the call ends in a raised client error rather
than an immediate empty result.  This refutes the claim that a definitive
client error (HTTP 400) is never retried by the exchange client. -/
theorem binance_http400_retried_cex :
    binanceMakeRequest (fun _ => AttemptOutcome.http 400 0)
        = (3, Except.error FetchError.clientError) ∧
    (binanceMakeRequest (fun _ => AttemptOutcome.http 400 0)).1 ≠ 1 :=
  ⟨rfl, by decide⟩

/-- C5 amended: the large-trade monitor's `BinanceClient.get_recent_trades`
(test.py) returns `[]` immediately on an HTTP 400 with no retry (one
attempt), while the futures client's `BinanceAPI._make_request`
(api/binance.py) raises a retryable client error on a 400 and performs 3
attempts before the error surfaces. -/
theorem http400_handling (resps : ℕ → TradesOutcome)
    (aresps : ℕ → AttemptOutcome) (b : List ℕ)
    (h400 : resps 0 = TradesOutcome.http 400 b)
    (ha : ∀ i, ∃ body, aresps i = AttemptOutcome.http 400 body) :
    getRecentTrades resps = (1, []) ∧
    binanceMakeRequest aresps = (3, Except.error FetchError.clientError) := by
  constructor
  · simp [getRecentTrades, MAX_RETRIES, getRecentTradesGo, h400, handleTradesResp]
  · obtain ⟨b0, h0⟩ := ha 0
    obtain ⟨b1, h1⟩ := ha 1
    obtain ⟨b2, h2⟩ := ha 2
    simp [binanceMakeRequest, retryCall, binanceAttempt, h0, h1, h2, isRetryable]

/-- C5 witness: concrete instantiation of `http400_handling` at an
all-400 response stream. -/
theorem http400_handling_witness :
    getRecentTrades (fun _ => TradesOutcome.http 400 []) = (1, []) ∧
    binanceMakeRequest (fun _ => AttemptOutcome.http 400 0)
        = (3, Except.error FetchError.clientError) :=
  http400_handling (fun _ => TradesOutcome.http 400 [])
    (fun _ => AttemptOutcome.http 400 0) [] rfl (fun _ => ⟨0, rfl⟩)

/-- C6 counterexample: `Database.save_api_error` (db/database.py) contains no
exception handler: when the underlying INSERT fails, the exception
propagates to the caller instead of the method returning normally.  This
refutes the claim that `save_api_error` never raises for every persistence
outcome. -/
theorem save_api_error_raises_cex :
    save_api_error (DbOutcome.failure "Lost connection".toList)
        "Binance".toList "collect_data".toList "ERROR".toList "msg".toList
      = Except.error "Lost connection".toList :=
  rfl

/-- C6 amended: `save_api_error` returns normally exactly when the
underlying INSERT succeeds, storing the message truncated to 1000
characters; when the INSERT fails, the exception propagates to the caller
(the cycle survives only because `asyncio.gather(..., return_exceptions=True)`
isolates it upstream). -/
theorem save_api_error_outcomes (exchange endpoint code msg : List Char) :
    save_api_error DbOutcome.success exchange endpoint code msg
        = Except.ok ⟨exchange, endpoint, code, msg.take 1000⟩ ∧
    ∀ e, save_api_error (DbOutcome.failure e) exchange endpoint code msg
        = Except.error e :=
  ⟨rfl, fun _ => rfl⟩

/-- C7: for every batch sequence of per-pair fetch outcomes, the collector
contributes exactly the successful results in order (each failure is
excluded without affecting its siblings), and the number of collected
records is the number of tasks minus the number of failures; the collection
function is total, so the cycle completes. -/
theorem batch_failure_isolation (outcomes : List (Except ε ρ)) (batchSize : ℕ)
    (hbs : 0 < batchSize) :
    collect_exchange_data outcomes batchSize = outcomes.filterMap Except.toOption ∧
    (collect_exchange_data outcomes batchSize).length
      = outcomes.length - outcomes.countP (fun r => !r.isOk) := by
  have hmain :
      collect_exchange_data outcomes batchSize = outcomes.filterMap Except.toOption := by
    unfold collect_exchange_data toBatches
    rw [collect_outer_fold batchSize hbs outcomes.length outcomes [] le_rfl]
    simp
  refine ⟨hmain, ?_⟩
  rw [hmain]
  have := filterMap_toOption_length outcomes
  omega

/-- C7 witness: the spec's example — ten tasks of which the fifth fails —
yields exactly the nine successful records and completes. -/
theorem batch_failure_isolation_witness :
    collect_exchange_data
        [Except.ok 1, Except.ok 2, Except.ok 3, Except.ok 4,
         Except.error "boom", Except.ok 6, Except.ok 7, Except.ok 8,
         Except.ok 9, Except.ok 10] 50
      = [Except.ok 1, Except.ok 2, Except.ok 3, Except.ok 4,
         Except.error "boom", Except.ok 6, Except.ok 7, Except.ok 8,
         Except.ok 9, Except.ok 10].filterMap Except.toOption ∧
    (collect_exchange_data
        [Except.ok (1 : ℕ), Except.ok 2, Except.ok 3, Except.ok 4,
         Except.error "boom", Except.ok 6, Except.ok 7, Except.ok 8,
         Except.ok 9, Except.ok 10] 50).length
      = ([Except.ok (1 : ℕ), Except.ok 2, Except.ok 3, Except.ok 4,
          Except.error "boom", Except.ok 6, Except.ok 7, Except.ok 8,
          Except.ok 9, Except.ok 10] : List (Except String ℕ)).length
        - ([Except.ok (1 : ℕ), Except.ok 2, Except.ok 3, Except.ok 4,
            Except.error "boom", Except.ok 6, Except.ok 7, Except.ok 8,
            Except.ok 9, Except.ok 10] : List (Except String ℕ)).countP
            (fun r => !r.isOk) :=
  batch_failure_isolation
    [Except.ok 1, Except.ok 2, Except.ok 3, Except.ok 4,
     Except.error "boom", Except.ok 6, Except.ok 7, Except.ok 8,
     Except.ok 9, Except.ok 10] 50 (by decide)

/-- C8 counterexample: `BinanceClient.get_recent_trades` (test.py) performs
the initial attempt plus up to `MAX_RETRIES = 3` retries: with a persistent
transient failure it makes 4 attempts, exceeding the claimed ceiling of 3. -/
theorem attempts_exceed_three_cex :
    (getRecentTrades (fun _ => TradesOutcome.exn)).1 = 4 ∧
    ¬ (getRecentTrades (fun _ => TradesOutcome.exn)).1 ≤ 3 :=
  ⟨rfl, by decide⟩

/-- C8 amended: transient failures are retried with a bounded number of
attempts, after which the call gives up: `BinanceAPI._make_request` makes at
most 3 attempts (tenacity `stop_after_attempt(3)`, exponential backoff) and
then surfaces the failure to the caller, while
`BinanceClient.get_recent_trades` makes at most 4 attempts (initial call
plus `MAX_RETRIES = 3` retries with fixed delay) and then returns the empty
result. -/
theorem retry_attempt_bounds :
    (∀ aresps, (binanceMakeRequest aresps).1 ≤ 3) ∧
    (∀ aresps, (∀ i, aresps i = AttemptOutcome.netError) →
      binanceMakeRequest aresps = (3, Except.error FetchError.clientError)) ∧
    (∀ resps, (getRecentTrades resps).1 ≤ 4) ∧
    (∀ resps, (∀ i, resps i = TradesOutcome.exn) →
      getRecentTrades resps = (4, [])) := by
  refine ⟨?_, ?_, ?_, ?_⟩
  · intro aresps
    exact retryCall_attempts_le (fun i => binanceAttempt (aresps i)) 3 0
  · intro aresps h
    simp [binanceMakeRequest, retryCall, binanceAttempt, h 0, h 1, h 2, isRetryable]
  · intro resps
    exact getRecentTradesGo_attempts_le resps MAX_RETRIES 0
  · intro resps h
    exact getRecentTradesGo_all_exn resps h MAX_RETRIES 0

/-- C8 witness: concrete instantiation of `retry_attempt_bounds` on
persistently failing response streams. -/
theorem retry_attempt_bounds_witness :
    binanceMakeRequest (fun _ => AttemptOutcome.netError)
        = (3, Except.error FetchError.clientError) ∧
    getRecentTrades (fun _ => TradesOutcome.exn) = (4, []) :=
  ⟨retry_attempt_bounds.2.1 (fun _ => AttemptOutcome.netError) (fun _ => rfl),
   retry_attempt_bounds.2.2.2 (fun _ => TradesOutcome.exn) (fun _ => rfl)⟩

/-- C2: for every trade list `T` with pairwise-distinct ids, a second
`save_trades T` call leaves the table exactly as the first call left it and
reports 0 new inserts and `|T|` duplicates; the first call partitions `T`
exactly (new + duplicate counts sum to `|T|`); and the table never acquires
a duplicate id row (id-uniqueness is preserved), so re-inserting a stored
trade id is a no-op. -/
theorem save_trades_idempotent (db : List TradeRow) (T : List TradeRec)
    (hT : (T.map TradeRec.id).Nodup) :
    (save_trades (save_trades db T).1 T).1 = (save_trades db T).1 ∧
    (save_trades (save_trades db T).1 T).2.1 = 0 ∧
    (save_trades (save_trades db T).1 T).2.2 = T.length ∧
    (save_trades db T).2.1 + (save_trades db T).2.2 = T.length ∧
    ((dbIds db).Nodup → (dbIds (save_trades db T).1).Nodup) := by
  by_cases hemp : T.isEmpty = true
  · have hTnil : T = [] := List.isEmpty_iff.mp hemp
    subst hTnil
    simp [save_trades]
  · have hne : T.isEmpty = false := by simpa using hemp
    have h1 := save_trades_spec db T hne hT
    have hall : ∀ t ∈ T, t.id ∈ dbIds (save_trades db T).1 := by
      intro t ht
      rw [h1, dbIds_append, List.mem_append]
      by_cases hdb : t.id ∈ dbIds db
      · exact Or.inl hdb
      · right
        rw [rows_ids]
        exact List.mem_map_of_mem TradeRec.id
          (List.mem_filter.mpr ⟨ht, by simpa using hdb⟩)
    have h2 := save_trades_all_present (save_trades db T).1 T hne hall
    refine ⟨by rw [h2], by rw [h2], by rw [h2], ?_, ?_⟩
    · rw [h1]
      have hpart : T.length
          = (T.filter (fun t => decide (t.id ∈ dbIds db))).length
            + (T.filter (fun t => !decide (t.id ∈ dbIds db))).length :=
        List.length_eq_length_filter_add _
      simp only []
      omega
    · intro hdbn
      rw [h1, dbIds_append]
      refine List.Nodup.append hdbn ?_ ?_
      · rw [rows_ids]
        exact List.Nodup.sublist (List.Sublist.map _ (List.filter_sublist T)) hT
      · intro a ha hb
        rw [rows_ids, List.mem_map] at hb
        obtain ⟨t, ht, rfl⟩ := hb
        rw [List.mem_filter] at ht
        have : t.id ∉ dbIds db := by simpa using ht.2
        exact this ha

/-- C2 witness: concrete instantiation of `save_trades_idempotent` on an
empty table and two trades with distinct ids. -/
theorem save_trades_idempotent_witness :
    (save_trades
        (save_trades []
          [⟨1, [], 1, 1, 0, false, [], [], 1⟩, ⟨2, [], 2, 1, 0, true, [], [], 2⟩]).1
        [⟨1, [], 1, 1, 0, false, [], [], 1⟩, ⟨2, [], 2, 1, 0, true, [], [], 2⟩]).1
      = (save_trades []
          [⟨1, [], 1, 1, 0, false, [], [], 1⟩, ⟨2, [], 2, 1, 0, true, [], [], 2⟩]).1 ∧
    (save_trades
        (save_trades []
          [⟨1, [], 1, 1, 0, false, [], [], 1⟩, ⟨2, [], 2, 1, 0, true, [], [], 2⟩]).1
        [⟨1, [], 1, 1, 0, false, [], [], 1⟩, ⟨2, [], 2, 1, 0, true, [], [], 2⟩]).2.1
      = 0 ∧
    (save_trades
        (save_trades []
          [⟨1, [], 1, 1, 0, false, [], [], 1⟩, ⟨2, [], 2, 1, 0, true, [], [], 2⟩]).1
        [⟨1, [], 1, 1, 0, false, [], [], 1⟩, ⟨2, [], 2, 1, 0, true, [], [], 2⟩]).2.2
      = ([⟨1, [], 1, 1, 0, false, [], [], 1⟩,
          ⟨2, [], 2, 1, 0, true, [], [], 2⟩] : List TradeRec).length ∧
    (save_trades []
        [⟨1, [], 1, 1, 0, false, [], [], 1⟩, ⟨2, [], 2, 1, 0, true, [], [], 2⟩]).2.1
      + (save_trades []
          [⟨1, [], 1, 1, 0, false, [], [], 1⟩, ⟨2, [], 2, 1, 0, true, [], [], 2⟩]).2.2
      = ([⟨1, [], 1, 1, 0, false, [], [], 1⟩,
          ⟨2, [], 2, 1, 0, true, [], [], 2⟩] : List TradeRec).length ∧
    ((dbIds []).Nodup →
      (dbIds (save_trades []
        [⟨1, [], 1, 1, 0, false, [], [], 1⟩, ⟨2, [], 2, 1, 0, true, [], [], 2⟩]).1).Nodup) :=
  save_trades_idempotent []
    [⟨1, [], 1, 1, 0, false, [], [], 1⟩, ⟨2, [], 2, 1, 0, true, [], [], 2⟩]
    (by decide)

/-- C3: a missing operand always yields a null derived field: when the
pair's price is absent the snapshot's `open_interest_usd` is `None`
regardless of `open_interest_contracts` (on Binance directly, on Bybit the
price is absent exactly when the ticker is absent), and when the BTC
reference price is absent or zero every persisted row has `volume_btc =
None`. -/
theorem derived_fields_null_on_missing :
    (∀ symbol oi fr tk,
      (collect_pair_data_binance symbol oi fr none tk).open_interest_usd = none) ∧
    (∀ symbol oi fr,
      (collect_pair_data_bybit symbol oi fr none).open_interest_usd = none) ∧
    (∀ exchangeData cmcData btcPriceOpt,
      (btcPriceOpt = none ∨ btcPriceOpt = some 0) →
      ∀ row ∈ process_and_save_data exchangeData cmcData btcPriceOpt,
        row.volume_btc = none) := by
  refine ⟨?_, ?_, ?_⟩
  · intro symbol oi fr tk
    cases oi <;> rfl
  · intro symbol oi fr
    cases oi <;> rfl
  · intro exchangeData cmcData btcPriceOpt hbtc row hrow
    have hb : btcPriceOpt.getD 0 = 0 := by rcases hbtc with rfl | rfl <;> rfl
    obtain ⟨d, _, tok, _, _, _, hvb⟩ := process_row_shape hrow
    rw [hvb, hb, computeVolumeBtc_zero]

/-- C3 witness: concrete instantiation of `derived_fields_null_on_missing`:
a Binance pair snapshot with open interest but no price, a Bybit snapshot
with no ticker, and a persisted row produced with an absent BTC reference
price. -/
theorem derived_fields_null_witness :
    (collect_pair_data_binance "BTCUSDT".toList (some 5) none none none).open_interest_usd
        = none ∧
    (collect_pair_data_bybit "BTCUSDT".toList (some 5) none none).open_interest_usd
        = none ∧
    (⟨"BTCUSDT".toList, "BTC".toList, some 5, none, none, none, none, none, none, 0⟩
        : FuturesRow).volume_btc = none :=
  ⟨derived_fields_null_on_missing.1 "BTCUSDT".toList (some 5) none none,
   derived_fields_null_on_missing.2.1 "BTCUSDT".toList (some 5) none,
   derived_fields_null_on_missing.2.2
     [⟨"BTCUSDT".toList, some 5, none, none, none, some 3, none⟩]
     (fun _ => none) none (Or.inl rfl)
     ⟨"BTCUSDT".toList, "BTC".toList, some 5, none, none, none, none, none, none, 0⟩
     (by decide)⟩

/-- C4: `extract_token_symbol` strips the longest recognized quote-currency
suffix from the fixed ordered list USDT, USDC, BUSD, USD, BTC, ETH, BNB
(every matching quote currency is at most as long as the one stripped), with
`extract_token_symbol "BTCUSDT" = some "BTC"`,
`extract_token_symbol "ETHBTC" = some "ETH"`,
`extract_token_symbol "XYZ" = none`; and no record whose pair symbol has no
recognized suffix is ever persisted by the merge step. -/
theorem extract_token_symbol_spec :
    extract_token_symbol "BTCUSDT".toList = some "BTC".toList ∧
    extract_token_symbol "ETHBTC".toList = some "ETH".toList ∧
    extract_token_symbol "XYZ".toList = none ∧
    (∀ pair q, q ∈ quote_currencies → q.isSuffixOf pair = true →
      ∃ q', q' ∈ quote_currencies ∧ q'.isSuffixOf pair = true ∧
        q.length ≤ q'.length ∧
        extract_token_symbol pair = some (pair.take (pair.length - q'.length))) ∧
    (∀ exchangeData cmcData btcPriceOpt s, extract_token_symbol s = none →
      ∀ row ∈ process_and_save_data exchangeData cmcData btcPriceOpt,
        row.pair_symbol ≠ s) := by
  refine ⟨by decide, by decide, by decide, ?_, ?_⟩
  · intro pair q hq hsuf
    have hq7 : q = "USDT".toList ∨ q = "USDC".toList ∨ q = "BUSD".toList ∨
        q = "USD".toList ∨ q = "BTC".toList ∨ q = "ETH".toList ∨
        q = "BNB".toList := by
      simpa [quote_currencies] using hq
    by_cases h1 : (['U','S','D','T'].isSuffixOf pair) = true
    · exact ⟨"USDT".toList, by decide, h1, quote_length_le_four q hq,
        by simp [extract_unfold, h1]⟩
    by_cases h2 : (['U','S','D','C'].isSuffixOf pair) = true
    · exact ⟨"USDC".toList, by decide, h2, quote_length_le_four q hq,
        by simp [extract_unfold, h1, h2]⟩
    by_cases h3 : (['B','U','S','D'].isSuffixOf pair) = true
    · exact ⟨"BUSD".toList, by decide, h3, quote_length_le_four q hq,
        by simp [extract_unfold, h1, h2, h3]⟩
    have hq3 : q.length ≤ 3 := by
      rcases hq7 with rfl | rfl | rfl | rfl | rfl | rfl | rfl
      · exact absurd hsuf h1
      · exact absurd hsuf h2
      · exact absurd hsuf h3
      all_goals decide
    by_cases h4 : (['U','S','D'].isSuffixOf pair) = true
    · exact ⟨"USD".toList, by decide, h4, hq3,
        by simp [extract_unfold, h1, h2, h3, h4]⟩
    by_cases h5 : (['B','T','C'].isSuffixOf pair) = true
    · exact ⟨"BTC".toList, by decide, h5, hq3,
        by simp [extract_unfold, h1, h2, h3, h4, h5]⟩
    by_cases h6 : (['E','T','H'].isSuffixOf pair) = true
    · exact ⟨"ETH".toList, by decide, h6, hq3,
        by simp [extract_unfold, h1, h2, h3, h4, h5, h6]⟩
    by_cases h7 : (['B','N','B'].isSuffixOf pair) = true
    · exact ⟨"BNB".toList, by decide, h7, hq3,
        by simp [extract_unfold, h1, h2, h3, h4, h5, h6, h7]⟩
    exfalso
    rcases hq7 with rfl | rfl | rfl | rfl | rfl | rfl | rfl
    · exact h1 hsuf
    · exact h2 hsuf
    · exact h3 hsuf
    · exact h4 hsuf
    · exact h5 hsuf
    · exact h6 hsuf
    · exact h7 hsuf
  · intro exchangeData cmcData btcPriceOpt s hs row hrow hcontra
    obtain ⟨d, _, tok, hex, _, hps, _⟩ := process_row_shape hrow
    rw [hcontra] at hps
    rw [hps] at hs
    rw [hs] at hex
    exact Option.noConfusion hex

/-- C4 witness: concrete instantiation of `extract_token_symbol_spec`: for
the pair XBUSD both BUSD and USD are recognized suffixes and the longer
BUSD is the one stripped, and a record with pair symbol XYZ (no recognized
suffix) is dropped — the only persisted row comes from the BTCUSDT record. -/
theorem extract_token_symbol_spec_witness :
    (∃ q', q' ∈ quote_currencies ∧ q'.isSuffixOf "XBUSD".toList = true ∧
      ("USD".toList).length ≤ q'.length ∧
      extract_token_symbol "XBUSD".toList
        = some (("XBUSD".toList).take (("XBUSD".toList).length - q'.length))) ∧
    (⟨"BTCUSDT".toList, "BTC".toList, none, none, none, none, none, none, none, 0⟩
        : FuturesRow).pair_symbol ≠ "XYZ".toList :=
  ⟨extract_token_symbol_spec.2.2.2.1 "XBUSD".toList "USD".toList (by decide)
     (by decide),
   extract_token_symbol_spec.2.2.2.2
     [⟨"XYZ".toList, none, none, none, none, none, none⟩,
      ⟨"BTCUSDT".toList, none, none, none, none, none, none⟩]
     (fun _ => none) none "XYZ".toList (by decide)
     ⟨"BTCUSDT".toList, "BTC".toList, none, none, none, none, none, none, none, 0⟩
     (by decide)⟩

/-- C9: every pair returned by `filter_trading_pairs` fails both exclusion
tests: no output pair has both legs in the stablecoin set (regardless of its
volume), and no output pair's base asset is in the wrapped-token set or
starts with W with length greater than 2 (even when its 24h USD volume
exceeds the configured floor) — such pairs are excluded unconditionally,
since both guards run before the volume check. -/
theorem filter_trading_pairs_excludes (symbols : List SymbolInfo)
    (tickers : List Ticker24) (p : TradingPairInfo)
    (hp : p ∈ filter_trading_pairs symbols tickers) :
    is_stablecoin_pair p.base_asset p.quote_asset = false ∧
    is_wrapped_token p.base_asset = false := by
  simp only [filter_trading_pairs] at hp
  exact filter_fold_preserves tickers
    (update_quote_prices initialQuotePrices tickers) symbols []
    (fun q hq => absurd hq (List.not_mem_nil q)) p hp

/-- C9 witness: a high-volume BTCUSDT spot pair passes the filter, and
`filter_trading_pairs_excludes` applies to it. -/
theorem filter_trading_pairs_excludes_witness :
    is_stablecoin_pair
        (⟨"BTCUSDT".toList, "BTC".toList, "USDT".toList, 2000000 * 1, 1⟩
          : TradingPairInfo).base_asset
        (⟨"BTCUSDT".toList, "BTC".toList, "USDT".toList, 2000000 * 1, 1⟩
          : TradingPairInfo).quote_asset = false ∧
    is_wrapped_token
        (⟨"BTCUSDT".toList, "BTC".toList, "USDT".toList, 2000000 * 1, 1⟩
          : TradingPairInfo).base_asset = false :=
  filter_trading_pairs_excludes
    [⟨"BTCUSDT".toList, "TRADING".toList, true, "BTC".toList, "USDT".toList⟩]
    [⟨"BTCUSDT".toList, 2000000, 50000⟩]
    ⟨"BTCUSDT".toList, "BTC".toList, "USDT".toList, 2000000 * 1, 1⟩
    (by
      simp only [filter_trading_pairs, List.foldl_cons, List.foldl_nil]
      rw [if_neg (by decide), if_neg (by decide), if_neg (by decide)]
      have htk : tickerLookup [⟨"BTCUSDT".toList, 2000000, 50000⟩] "BTCUSDT".toList
          = some ⟨"BTCUSDT".toList, 2000000, 50000⟩ := rfl
      simp only [htk]
      have hpr : update_quote_prices initialQuotePrices
          [⟨"BTCUSDT".toList, 2000000, 50000⟩] "USDT".toList = 1 := rfl
      have hcv : calculate_volume_usd
          (update_quote_prices initialQuotePrices [⟨"BTCUSDT".toList, 2000000, 50000⟩])
          2000000 "USDT".toList = 2000000 * 1 := by
        rw [calculate_volume_usd, hpr]
      rw [hcv, if_neg (by norm_num [MIN_VOLUME_USD]), hpr]
      exact List.mem_singleton.mpr rfl)

/-- C1: the rate limiter admits a request exactly when the sum of the
recorded weights younger than 60 seconds plus the new weight stays within
`max_weight_per_minute` (and on rejection only prunes, never records, so
the caller sleeps and re-evaluates); consequently, for every run over a
time-ordered sequence of nonnegative-weight loop evaluations, the total
admitted weight inside any trailing 60-second window never exceeds the
budget. -/
theorem rate_limiter_window_bound (maxW : ℚ) (events : List (ℚ × ℚ))
    (hmax : 0 ≤ maxW)
    (hmono : List.Pairwise (fun a b : ℚ × ℚ => a.1 ≤ b.1) events)
    (hnn : ∀ e ∈ events, 0 ≤ e.2) :
    (∀ (reqs : List (ℚ × ℚ)) (now w : ℚ),
      ((acquireStep maxW reqs now w).2 = true ↔
        totalWeight (pruneRequests now reqs) + w ≤ maxW) ∧
      ((acquireStep maxW reqs now w).2 = false →
        (acquireStep maxW reqs now w).1 = pruneRequests now reqs)) ∧
    (∀ t, windowWeight t (admittedEvents maxW events) ≤ maxW) := by
  constructor
  · intro reqs now w
    constructor
    · constructor
      · intro h
        by_contra hc
        simp [acquireStep, hc] at h
      · intro h
        simp [acquireStep, h]
    · intro h
      by_cases hc : totalWeight (pruneRequests now reqs) + w ≤ maxW
      · simp [acquireStep, hc] at h
      · simp [acquireStep, hc]
  · intro t
    rcases runLimiter_window_inv maxW t events []
        hmono (by simp) (by simp) hnn with h | h
    · rw [admittedEvents, h]
      exact hmax
    · rw [admittedEvents]
      rw [windowWeight_nil] at h
      linarith

/-- C1 witness: concrete instantiation of `rate_limiter_window_bound` with
budget 100 and two admissible events. -/
theorem rate_limiter_window_bound_witness :
    (((acquireStep 100 [] 0 50).2 = true ↔
        totalWeight (pruneRequests 0 []) + 50 ≤ 100) ∧
      ((acquireStep 100 [] 0 50).2 = false →
        (acquireStep 100 [] 0 50).1 = pruneRequests 0 [])) ∧
    windowWeight 61 (admittedEvents 100 [(0, 50), (1, 100)]) ≤ 100 :=
  ⟨(rate_limiter_window_bound 100 [(0, 50), (1, 100)] (by norm_num)
      (by
        refine List.Pairwise.cons ?_ (List.pairwise_singleton _ _)
        intro b hb
        rw [List.mem_singleton] at hb
        subst hb
        norm_num)
      (by
        intro e he
        rcases List.mem_cons.mp he with rfl | he
        · norm_num
        · rw [List.mem_singleton] at he
          subst he
          norm_num)).1 [] 0 50,
   (rate_limiter_window_bound 100 [(0, 50), (1, 100)] (by norm_num)
      (by
        refine List.Pairwise.cons ?_ (List.pairwise_singleton _ _)
        intro b hb
        rw [List.mem_singleton] at hb
        subst hb
        norm_num)
      (by
        intro e he
        rcases List.mem_cons.mp he with rfl | he
        · norm_num
        · rw [List.mem_singleton] at he
          subst he
          norm_num)).2 61⟩

/-- C10: `acquire(weight)` terminates for every weight within the budget —
old entries expire from the 60-second log, so starting from any log the
single-caller loop admits the request within `|log| + 1` evaluations — but
for a weight strictly greater than `max_weight_per_minute` the admission
condition can never hold (the pruned log's weight is nonnegative), so the
loop sleeps and re-evaluates forever: for every fuel bound it has still not
returned, and it never raises. -/
theorem acquire_termination (maxW w : ℚ) :
    (w ≤ maxW → ∀ (reqs : List (ℚ × ℚ)) (now : ℚ),
      (acquireLoop maxW w (reqs.length + 1) reqs now).isSome = true) ∧
    (maxW < w → ∀ (fuel : ℕ) (reqs : List (ℚ × ℚ)) (now : ℚ),
      (∀ e ∈ reqs, 0 ≤ e.2) → acquireLoop maxW w fuel reqs now = none) := by
  constructor
  · intro hw reqs now
    exact acquireLoop_terminates maxW w hw reqs.length reqs now
      (List.length_filter_le _ _)
  · intro hw fuel reqs now hnn
    exact acquireLoop_diverges maxW w hw fuel reqs now hnn

/-- C10 witness: with budget 10 and a log holding weight 8, a request of
weight 5 is admitted within two loop evaluations, while a request of
weight 20 is still spinning after any number of evaluations. -/
theorem acquire_termination_witness :
    (acquireLoop 10 5 ([((0 : ℚ), (8 : ℚ))].length + 1) [(0, 8)] 0).isSome = true ∧
    acquireLoop 10 20 5 [((0 : ℚ), (8 : ℚ))] 0 = none :=
  ⟨(acquire_termination 10 5).1 (by norm_num) [(0, 8)] 0,
   (acquire_termination 10 20).2 (by norm_num) 5 [(0, 8)] 0
     (by
       intro e he
       rw [List.mem_singleton] at he
       subst he
       norm_num)⟩

end OIScript
